import Mathlib

/-!
Shallow embedding of the disktest parallel keystream engine
(mbuesch/disktest) and proofs about it.

Machine integers are modelled as `Nat` (with explicit `% 2^w` where
64-bit wrap-around matters).  Byte buffers (`Vec<u8>`) are `List Nat`
whose elements are below 256.  Fallible Rust functions return `Except`
or pair the result with the (possibly unchanged) state.
-/

namespace Disktest

/-! ## util.rs -/

/-- Embedding of `util::fold` (src/src/util.rs).  `output` starts as
`vec![0; output_size]`; the loop XORs `input[i]` into
`output[i % output_size]`.  `foldGo` is the loop with explicit index. -/
def foldGo (outputSize : Nat) : List Nat → Nat → List Nat → List Nat
  | [], _, output => output
  | d :: rest, i, output =>
    foldGo outputSize rest (i + 1)
      (output.set (i % outputSize) (output.getD (i % outputSize) 0 ^^^ d))

/-- `util::fold`: fold a byte vector into a smaller byte vector with XOR.
The `if output_size > 0` guard of the source protects the `%`. -/
def fold (input : List Nat) (outputSize : Nat) : List Nat :=
  let output := List.replicate outputSize 0
  if 0 < outputSize then foldGo outputSize input 0 output else output

/-- XOR of all bytes of `rest` whose absolute index (starting at `i`)
is congruent to `o` modulo `outputSize`.  Specification device used to
characterise `fold`. -/
def xorAt (outputSize o : Nat) : List Nat → Nat → Nat
  | [], _ => 0
  | d :: rest, i =>
    (if i % outputSize = o then d else 0) ^^^ xorAt outputSize o rest (i + 1)

/-! ## bufcache.rs -/

/-- `Vec::resize(len, 0)`: truncate or extend with zero bytes. -/
def vecResize (v : List Nat) (len : Nat) : List Nat :=
  v.take len ++ List.replicate (len - v.length) 0

/-- Embedding of `BufCacheCons::pull` (src/src/bufcache.rs).  The
consumer queue is the FIFO of buffers pushed for this thread;
`try_recv` takes its front, a fresh `Vec::with_capacity` is empty.
If the length does not match `buf_len`, `resize(buf_len, 0)` runs.
Returns the buffer and the remaining queue. -/
def BufCacheCons.pull (queue : List (List Nat)) (bufLen : Nat) :
    List Nat × List (List Nat) :=
  let recv : List Nat × List (List Nat) :=
    match queue with
    | [] => ([], [])
    | b :: rest => (b, rest)
  let buf := recv.1
  (if buf.length ≠ bufLen then vecResize buf bufLen else buf, recv.2)

/-! ## 64-bit helpers -/

/-- 2^64, the modulus of `u64` arithmetic. -/
def M64 : Nat := 18446744073709551616

/-- All-ones 64-bit word; `!0u64` in Rust. -/
def mask64 : Nat := M64 - 1

/-- `u64::to_le_bytes`. -/
def le64 (w : Nat) : List Nat :=
  [w % 256, (w >>> 8) % 256, (w >>> 16) % 256, (w >>> 24) % 256,
   (w >>> 32) % 256, (w >>> 40) % 256, (w >>> 48) % 256, (w >>> 56) % 256]

/-- `u32::to_le_bytes`. -/
def le32 (w : Nat) : List Nat :=
  [w % 256, (w >>> 8) % 256, (w >>> 16) % 256, (w >>> 24) % 256]

/-- `u32::rotate_left` (the rotate amount is taken modulo 32). -/
def rotl32 (x n : Nat) : Nat :=
  let s := n % 32
  ((x <<< s) % 4294967296) ||| (x >>> (32 - s))

/-! ## generator/crc.rs

The `crc` crate's `crc64::Digest` (reflected CRC-64 with the ECMA
polynomial) keeps an internal register; `Digest::new(poly)` starts the
register at `!0`, `write` runs the byte-wise reflected update, and
`sum64` returns the bit-inverted register. -/

/-- The reflected ECMA CRC-64 polynomial, `crc::crc64::ECMA`. -/
def crcPoly : Nat := 0xC96C5795D7870F42

/-- One bit of the reflected CRC-64 update. -/
def crcBitStep (x : Nat) : Nat :=
  if x % 2 = 1 then (x >>> 1) ^^^ crcPoly else x >>> 1

/-- Absorb one byte into the CRC register (8 reflected bit steps of
the byte XORed into the low end; equal to the crate's table lookup). -/
def crcUpdByte (r b : Nat) : Nat :=
  crcBitStep (crcBitStep (crcBitStep (crcBitStep
    (crcBitStep (crcBitStep (crcBitStep (crcBitStep (r ^^^ b))))))))

/-- `Digest::write`: absorb a byte string. -/
def crcWrite (r : Nat) (bytes : List Nat) : Nat := bytes.foldl crcUpdByte r

/-- `Digest::sum64`: the bit-inverted register. -/
def crcSum64 (r : Nat) : Nat := r ^^^ mask64

/-- State of `GeneratorCrc` (src/src/generator/crc.rs): the folded
seed and the block counter.  The embedded `crc64::Digest` is reset at
the start of every block, so it is not part of the abstract state. -/
structure GeneratorCrc where
  foldedSeed : List Nat
  counter : Nat
deriving DecidableEq, Repr

/-- `GeneratorCrc::BASE_SIZE = 256 * 8`. -/
def GeneratorCrc.BASE_SIZE : Nat := 256 * 8

/-- `GeneratorCrc::new`: fold the seed to 8 bytes, counter 0. -/
def GeneratorCrc.new (seed : List Nat) : GeneratorCrc :=
  { foldedSeed := fold seed 8, counter := 0 }

/-- The inner loop of `GeneratorCrc::next`: for the remaining `n`
offsets starting at `offs`, absorb the single byte `offs` and emit the
bit-inverted CRC value in little-endian order. -/
def crcBlockGo : Nat → Nat → Nat → List Nat
  | 0, _, _ => []
  | n + 1, offs, r =>
    let r2 := crcUpdByte r offs
    le64 (crcSum64 r2) ++ crcBlockGo n (offs + 1) r2

/-- One base block of `GeneratorCrc::next`: reset the digest, absorb
`folded_seed || le64(counter)`, then run the 256-step inner loop. -/
def crcBlock (foldedSeed : List Nat) (counter : Nat) : List Nat :=
  crcBlockGo 256 0 (crcWrite mask64 (foldedSeed ++ le64 counter))

/-- The outer loop of `GeneratorCrc::next`: emit `count` blocks,
incrementing the counter after each block. -/
def crcNextGo : Nat → List Nat → Nat → List Nat
  | 0, _, _ => []
  | n + 1, fs, ctr => crcBlock fs ctr ++ crcNextGo n fs (ctr + 1)

/-- `GeneratorCrc::next(buf, count)`: the produced bytes and the new
generator state. -/
def GeneratorCrc.next (g : GeneratorCrc) (count : Nat) :
    List Nat × GeneratorCrc :=
  (crcNextGo count g.foldedSeed g.counter, { g with counter := g.counter + count })

/-- Generator error type (`anyhow` errors distinguished by site). -/
inductive GenError where
  | seekAlignment
deriving DecidableEq, Repr

/-- `GeneratorCrc::seek(byte_offset)`: requires a multiple of
`BASE_SIZE`; on failure the state is returned unchanged. -/
def GeneratorCrc.seek (g : GeneratorCrc) (byteOffset : Nat) :
    Except GenError Unit × GeneratorCrc :=
  if byteOffset % GeneratorCrc.BASE_SIZE ≠ 0 then
    (Except.error GenError.seekAlignment, g)
  else
    (Except.ok (), { g with counter := byteOffset / GeneratorCrc.BASE_SIZE })

/-- The CRC register after the digest absorbed
`folded_seed || le64(counter)` and then the single bytes
`0, 1, ..., offs`.  Random-access description of the inner-loop state. -/
def crcDigestAfter (foldedSeed : List Nat) (counter offs : Nat) : Nat :=
  (List.range (offs + 1)).foldl crcUpdByte
    (crcWrite mask64 (foldedSeed ++ le64 counter))

/-- The rolling reduction of the reference tests:
`fold 0 (enumerate bytes) with f acc (i, b) = rotate_left(acc, i) ^ b`. -/
def rollingReduce (bytes : List Nat) : Nat :=
  (bytes.enum.foldl (fun acc p => rotl32 acc p.1 ^^^ p.2) 0)

/-- Force a `Nat` to a numeral before continuing.  Semantically the
identity; it makes kernel reduction strict in `n`, matching the strict
evaluation order of the Rust code. -/
def forceThen {α : Type} (n : Nat) (k : Nat → α) : α :=
  match n with
  | 0 => k 0
  | m + 1 => k (m + 1)

/-- Strict accumulator form of `rollingReduce` (kernel-evaluable). -/
def rollGo : List Nat → Nat → Nat → Nat
  | [], _, acc => acc
  | b :: rest, i, acc =>
    forceThen (rotl32 acc i ^^^ b) (fun a => rollGo rest (i + 1) a)

/-! ## stream_aggregator.rs -/

/-- Errors surfaced by `DtStreamAgg` (src/src/stream_aggregator.rs). -/
inductive AggError where
  | geometryMismatch
deriving DecidableEq, Repr

/-- `DtStreamAgg::calc_chunk_size`: `chunk_size = base_chunk_size *
chunk_factor`, rejected when it is not a multiple of the sector size. -/
def calc_chunk_size (baseChunkSize chunkFactor sectorSize : Nat) :
    Except AggError (Nat × Nat) :=
  let chunkSize := baseChunkSize * chunkFactor
  if chunkSize % sectorSize ≠ 0 then Except.error AggError.geometryMismatch
  else Except.ok (chunkSize, chunkFactor)

/-- `DtStreamAggActivateResult` extended with the observable effect of
activation: the new round-robin cursor and the generator byte offset
every stream was activated at. -/
structure AggActivation where
  currentIndex : Nat
  threadOffsets : List Nat
  byteOffset : Nat
  chunkSize : Nat
deriving DecidableEq, Repr

/-- `DtStreamAgg::activate(byte_offset, sector_size)` for an
aggregator over `numThreads` streams whose generator has base chunk
size `baseChunkSize` and default chunk factor `chunkFactor`:
unaligned offsets are rounded down (with a warning, not modelled),
the cursor becomes `chunk_index % num_threads`, and stream `i` is
activated at `(iteration + (i < cursor ? 1 : 0)) * chunk_size`.
`DtStream::activate` itself always returns `Ok` in the source. -/
def DtStreamAgg.activate (numThreads baseChunkSize chunkFactor : Nat)
    (byteOffset sectorSize : Nat) : Except AggError AggActivation :=
  match calc_chunk_size baseChunkSize chunkFactor sectorSize with
  | Except.error e => Except.error e
  | Except.ok (chunkSize, _chunkFactor) =>
    let byteOffset :=
      if byteOffset % chunkSize ≠ 0 then byteOffset - byteOffset % chunkSize
      else byteOffset
    let chunkIndex := byteOffset / chunkSize
    let currentIndex := chunkIndex % numThreads
    let threadOffsets := (List.range numThreads).map fun i =>
      let iteration := chunkIndex / numThreads
      if i < currentIndex then (iteration + 1) * chunkSize
      else iteration * chunkSize
    Except.ok
      { currentIndex := currentIndex
        threadOffsets := threadOffsets
        byteOffset := byteOffset
        chunkSize := chunkSize }

/-- The consumer-side state of `DtStreamAgg` used by `get_chunk`:
the round-robin cursor and, per stream, the queue of chunks the
worker has already produced (front = next `get_chunk` result). -/
structure AggConsState where
  numThreads : Nat
  currentIndex : Nat
  queues : List (List (List Nat))
deriving DecidableEq, Repr

/-- `DtStreamAggChunk`: the taken chunk buffer together with the
`thread_id` recorded for buffer recycling on drop. -/
structure DtStreamAggChunk where
  data : List Nat
  thread_id : Nat
deriving DecidableEq, Repr

/-- `DtStreamAgg::get_chunk`: take the front chunk of the stream at
`current_index` (`None` if its queue is empty), advance the cursor,
and wrap the chunk with `thread_id = self.current_index` — read
*after* the cursor advanced. -/
def DtStreamAgg.get_chunk (st : AggConsState) :
    Option (DtStreamAggChunk × AggConsState) :=
  match (st.queues.getD st.currentIndex []).head? with
  | none => none
  | some chunk =>
    let newIndex := (st.currentIndex + 1) % st.numThreads
    some
      ({ data := chunk, thread_id := newIndex },
       { st with
          currentIndex := newIndex
          queues := st.queues.set st.currentIndex
            (st.queues.getD st.currentIndex []).tail })

/-- The buffer cache keyed by consumer slot: slot `k` holds the queue
of buffers pushed for thread `k`. -/
abbrev BufCache := List (List (List Nat))

/-- `BufCache::push(thread_id, buf)` as observed through the matching
consumer: append the buffer to slot `thread_id`. -/
def BufCache.push (cache : BufCache) (threadId : Nat) (buf : List Nat) :
    BufCache :=
  cache.set threadId (cache.getD threadId [] ++ [buf])

/-- `Drop for DtStreamAggChunk`: recycle the buffer into the cache
slot named by the chunk's `thread_id`. -/
def DtStreamAggChunk.drop (c : DtStreamAggChunk) (cache : BufCache) :
    BufCache :=
  cache.push c.thread_id c.data

/-! ## disktest.rs

The write / verify pumps of `Disktest` (src/src/disktest.rs),
destructive mode.  `DisktestFile` I/O is modelled by a script: one
entry per `file.write` / `file.read` call.  `write_finalize` /
`verify_finalize` (sync, cache drop, close) are modelled as always
succeeding; the abort flag is `None` (never requested).  An exhausted
script yields `none` (the run would keep pumping). -/

/-- `Disktest::UNLIMITED = u64::MAX`. -/
def UNLIMITED : Nat := 18446744073709551615

/-- `libc::ENOSPC` (POSIX "no space left on device"). -/
def ENOSPC : Int := 28

/-- Result of one `DisktestFile::write` call: `Ok`, or an error
carrying `raw_os_error()`. -/
inductive WriteRes where
  | ok
  | err (rawOsError : Option Int)
deriving DecidableEq, Repr

/-- Errors returned by the pumps (`anyhow` errors by site). -/
inductive DtError where
  | writeError
  | readError
  | dataMismatch (pos : Nat)
deriving DecidableEq, Repr

/-- The loop of `Disktest::write_destructive_mode` after `init`.
State: bytes written so far and `bytes_left`; the script holds the
outcome of each `file.write`.  Result: the flag passed to
`write_finalize` and the function result. -/
def write_destructive_loop (maxBytes chunkSize : Nat) :
    Nat → Nat → List WriteRes → Option (Bool × Except DtError Nat)
  | _, _, [] => none
  | bytesWritten, bytesLeft, r :: rest =>
    let _writeLen := min chunkSize bytesLeft
    match r with
    | WriteRes.err code =>
      if maxBytes = UNLIMITED ∧ code = some ENOSPC then
        some (true, Except.ok bytesWritten)
      else
        some (false, Except.error DtError.writeError)
    | WriteRes.ok =>
      let bytesWritten := bytesWritten + min chunkSize bytesLeft
      let bytesLeft := bytesLeft - min chunkSize bytesLeft
      if bytesLeft = 0 then some (true, Except.ok bytesWritten)
      else write_destructive_loop maxBytes chunkSize bytesWritten bytesLeft rest

/-- First index at which two lists differ (`None` when the compared
ranges are equal). -/
def firstDiff : List Nat → List Nat → Option Nat
  | a :: as, b :: bs =>
    if a ≠ b then some 0 else (firstDiff as bs).map (· + 1)
  | _, _ => none

/-- `Disktest::verify_failed`: scan the first `read_count` bytes of
the buffer against the chunk and report `bytes_read + i` for the
first differing index `i` (`None` models the unreachable panic). -/
def verify_failed (readCount bytesRead : Nat) (buffer chunkData : List Nat) :
    Option Nat :=
  (firstDiff (buffer.take readCount) (chunkData.take readCount)).map
    (fun i => bytesRead + i)

/-- Fill `buf[p .. p+n)` with the device bytes at absolute offsets
`pos .. pos+n)` (the effect of a successful `file.read`). -/
def fillBuf (device : Nat → Nat) : List Nat → Nat → Nat → Nat → List Nat
  | buf, _, _, 0 => buf
  | buf, p, pos, n + 1 => fillBuf device (buf.set p (device pos)) (p + 1) (pos + 1) n

/-- The chunk `wait_chunk` returns after the aggregator was activated
at byte offset `sAdj`: chunk number `chunkIdx` carries the keystream
bytes at global offsets `sAdj + chunkIdx*chunk_size + j`. -/
def aggChunkData (keystream : Nat → Nat) (sAdj chunkSize chunkIdx : Nat) :
    List Nat :=
  (List.range chunkSize).map fun j => keystream (sAdj + chunkIdx * chunkSize + j)

/-- The loop of `Disktest::verify_destructive_mode` after `init`.
`device` maps absolute device offsets to bytes; `keystream` is the
global pseudo-random stream the aggregator reproduces from the
adjusted seek offset `sAdj`.  Each script entry is one `file.read`
outcome: `some n` delivers (up to) `n` bytes, `none` is a read error.
State: `bytes_read`, `bytes_left`, `read_count`, `read_len`, the
number of chunks consumed, and the reusable read buffer. -/
def verify_destructive_loop (keystream device : Nat → Nat)
    (sAdj chunkSize : Nat) :
    List (Option Nat) → Nat → Nat → Nat → Nat → Nat → List Nat →
    Option (Bool × Except DtError Nat)
  | [], _, _, _, _, _, _ => none
  | r :: rest, bytesRead, bytesLeft, readCount, readLen, chunkIdx, buffer =>
    match r with
    | none => some (false, Except.error DtError.readError)
    | some nRaw =>
      let n := min nRaw (readLen - readCount)
      let buffer := fillBuf device buffer readCount (sAdj + bytesRead + readCount) n
      let readCount := readCount + n
      if readCount = readLen ∨ (0 < readCount ∧ n = 0) then
        let chunk := aggChunkData keystream sAdj chunkSize chunkIdx
        if buffer.take readCount ≠ chunk.take readCount then
          match verify_failed readCount bytesRead buffer chunk with
          | some pos => some (false, Except.error (DtError.dataMismatch pos))
          | none => none
        else
          let bytesRead := bytesRead + readCount
          let bytesLeft := bytesLeft - readCount
          if bytesLeft = 0 then some (true, Except.ok bytesRead)
          else if n = 0 then some (true, Except.ok bytesRead)
          else
            verify_destructive_loop keystream device sAdj chunkSize rest
              bytesRead bytesLeft 0 (min chunkSize bytesLeft) (chunkIdx + 1)
              buffer
      else if n = 0 then some (true, Except.ok bytesRead)
      else
        verify_destructive_loop keystream device sAdj chunkSize rest
          bytesRead bytesLeft readCount readLen chunkIdx buffer

/-- Entry point of the verify pump: the initial state set up by
`verify_destructive_mode` (buffer `vec![0; chunk_size]`, counters 0,
`read_len = min(chunk_size, bytes_left)`). -/
def verify_destructive (keystream device : Nat → Nat)
    (sAdj chunkSize maxBytes : Nat) (reads : List (Option Nat)) :
    Option (Bool × Except DtError Nat) :=
  verify_destructive_loop keystream device sAdj chunkSize reads
    0 maxBytes 0 (min chunkSize maxBytes) 0 (List.replicate chunkSize 0)

/-! ## kdf.rs

`kdf` uses `ring`'s PBKDF2-HMAC-SHA512; the primitive is embedded from
its standard definition (FIPS 180-4 / RFC 2104 / RFC 8018).  The
SHA-512 round constants are derived from the fractional parts of the
roots of the first primes, as in the standard. -/

/-- `u32::rotate_right` on a 64-bit word. -/
def rotr64 (x n : Nat) : Nat := (x >>> n) ||| ((x <<< (64 - n)) % M64)

/-- SHA-512 Σ₀. -/
def bigS0 (x : Nat) : Nat := (rotr64 x 28) ^^^ (rotr64 x 34) ^^^ (rotr64 x 39)

/-- SHA-512 Σ₁. -/
def bigS1 (x : Nat) : Nat := (rotr64 x 14) ^^^ (rotr64 x 18) ^^^ (rotr64 x 41)

/-- SHA-512 σ₀. -/
def smlS0 (x : Nat) : Nat := (rotr64 x 1) ^^^ (rotr64 x 8) ^^^ (x >>> 7)

/-- SHA-512 σ₁. -/
def smlS1 (x : Nat) : Nat := (rotr64 x 19) ^^^ (rotr64 x 61) ^^^ (x >>> 6)

/-- SHA-512 Ch. -/
def chf (e f g : Nat) : Nat := (e &&& f) ^^^ ((e ^^^ mask64) &&& g)

/-- SHA-512 Maj. -/
def majf (a b c : Nat) : Nat := (a &&& b) ^^^ (a &&& c) ^^^ (b &&& c)

/-- SHA-512 working state: eight 64-bit words. -/
structure H8 where
  a : Nat
  b : Nat
  c : Nat
  d : Nat
  e : Nat
  f : Nat
  g : Nat
  h : Nat
deriving DecidableEq, Repr

/-- One SHA-512 round. -/
def shaRound (s : H8) (k w : Nat) : H8 :=
  let t1 := (s.h + bigS1 s.e + chf s.e s.f s.g + k + w) % M64
  let t2 := (bigS0 s.a + majf s.a s.b s.c) % M64
  ⟨(t1 + t2) % M64, s.a, s.b, s.c, (s.d + t1) % M64, s.e, s.f, s.g⟩

/-- One step of the SHA-512 message schedule on a 16-word window. -/
def schedStep (w : List Nat) : Nat :=
  (smlS1 (w.getD 14 0) + w.getD 9 0 + smlS0 (w.getD 1 0) + w.getD 0 0) % M64

/-- Extend the message schedule by `n` words. -/
def schedule : Nat → List Nat → List Nat
  | 0, _ => []
  | n + 1, w =>
    let x := schedStep w
    x :: schedule n (w.tail ++ [x])

/-- Run the 80 SHA-512 rounds. -/
def shaRounds : H8 → List Nat → List Nat → H8
  | s, k :: ks, w :: ws => shaRounds (shaRound s k w) ks ws
  | s, _, _ => s

/-- Integer cube root by binary search over the bits. -/
def icbrtGo (n : Nat) : Nat → Nat → Nat
  | 0, r => r
  | b + 1, r =>
    let r2 := r + (1 <<< b)
    if r2 * r2 * r2 ≤ n then icbrtGo n b r2 else icbrtGo n b r

/-- Integer cube root. -/
def icbrt (n : Nat) : Nat := icbrtGo n 68 0

/-- Integer square root by binary search over the bits. -/
def isqrtGo (n : Nat) : Nat → Nat → Nat
  | 0, r => r
  | b + 1, r =>
    let r2 := r + (1 <<< b)
    if r2 * r2 ≤ n then isqrtGo n b r2 else isqrtGo n b r

/-- Integer square root. -/
def isqrt (n : Nat) : Nat := isqrtGo n 68 0

/-- The first 80 primes, sources of the SHA-512 constants. -/
def primes80 : List Nat :=
  [2, 3, 5, 7, 11, 13, 17, 19, 23, 29, 31, 37, 41, 43, 47, 53, 59, 61, 67, 71,
   73, 79, 83, 89, 97, 101, 103, 107, 109, 113, 127, 131, 137, 139, 149, 151,
   157, 163, 167, 173, 179, 181, 191, 193, 197, 199, 211, 223, 227, 229, 233,
   239, 241, 251, 257, 263, 269, 271, 277, 281, 283, 293, 307, 311, 313, 317,
   331, 337, 347, 349, 353, 359, 367, 373, 379, 383, 389, 397, 401, 409]

/-- The 80 SHA-512 round constants: first 64 bits of the fractional
parts of the cube roots of the first 80 primes. -/
def K80 : List Nat := primes80.map fun p => icbrt (p <<< 192) % M64

/-- The SHA-512 initial hash value: first 64 bits of the fractional
parts of the square roots of the first 8 primes. -/
def sha512InitH : H8 :=
  match (primes80.take 8).map (fun p => isqrt (p <<< 128) % M64) with
  | [a, b, c, d, e, f, g, h] => ⟨a, b, c, d, e, f, g, h⟩
  | _ => ⟨0, 0, 0, 0, 0, 0, 0, 0⟩

/-- Add two SHA-512 states word-wise mod 2^64. -/
def add8 (x y : H8) : H8 :=
  ⟨(x.a + y.a) % M64, (x.b + y.b) % M64, (x.c + y.c) % M64, (x.d + y.d) % M64,
   (x.e + y.e) % M64, (x.f + y.f) % M64, (x.g + y.g) % M64, (x.h + y.h) % M64⟩

/-- The SHA-512 compression function on one 16-word block. -/
def shaCompress (s : H8) (blk : List Nat) : H8 :=
  add8 s (shaRounds s K80 (blk ++ schedule 64 blk))

/-- The state as a word list. -/
def h8ToList (s : H8) : List Nat := [s.a, s.b, s.c, s.d, s.e, s.f, s.g, s.h]

/-- Big-endian bytes to 64-bit words. -/
def bytesToW : List Nat → List Nat
  | b0 :: b1 :: b2 :: b3 :: b4 :: b5 :: b6 :: b7 :: rest =>
    (((((((b0 * 256 + b1) * 256 + b2) * 256 + b3) * 256 + b4) * 256 + b5) * 256
        + b6) * 256 + b7) :: bytesToW rest
  | _ => []

/-- One 64-bit word to big-endian bytes. -/
def be64 (w : Nat) : List Nat :=
  [(w >>> 56) % 256, (w >>> 48) % 256, (w >>> 40) % 256, (w >>> 32) % 256,
   (w >>> 24) % 256, (w >>> 16) % 256, (w >>> 8) % 256, w % 256]

/-- One 32-bit word to big-endian bytes. -/
def be32 (w : Nat) : List Nat :=
  [(w >>> 24) % 256, (w >>> 16) % 256, (w >>> 8) % 256, w % 256]

/-- SHA-512 padding: `0x80`, zeros, and the 128-bit bit length. -/
def shaPad (m : List Nat) : List Nat :=
  let l := m.length
  m ++ 0x80 :: List.replicate ((128 - ((l + 17) % 128)) % 128) 0 ++
    be64 ((8 * l) >>> 64) ++ be64 ((8 * l) % M64)

/-- Iterate the compression function over `n` 128-byte blocks. -/
def shaBlocksGo : Nat → H8 → List Nat → H8
  | 0, s, _ => s
  | n + 1, s, bs => shaBlocksGo n (shaCompress s (bytesToW (bs.take 128))) (bs.drop 128)

/-- SHA-512 of a byte string. -/
def sha512 (m : List Nat) : List Nat :=
  let p := shaPad m
  (h8ToList (shaBlocksGo (p.length / 128) sha512InitH p)).flatMap be64

/-- HMAC-SHA512 (RFC 2104, block size 128). -/
def hmacSha512 (key msg : List Nat) : List Nat :=
  let key := if 128 < key.length then sha512 key else key
  let key := key ++ List.replicate (128 - key.length) 0
  let ipadKey := key.map fun b => b ^^^ 0x36
  let opadKey := key.map fun b => b ^^^ 0x5c
  sha512 (opadKey ++ sha512 (ipadKey ++ msg))

/-- Byte-wise XOR of equal-length buffers. -/
def xorBytes (a b : List Nat) : List Nat := List.zipWith (fun x y => x ^^^ y) a b

/-- The tail of the PBKDF2 iteration: `n` further `U` values folded
into the accumulator. -/
def pbkdf2Go (password : List Nat) : List Nat → List Nat → Nat → List Nat
  | _, acc, 0 => acc
  | u, acc, n + 1 =>
    let u2 := hmacSha512 password u
    pbkdf2Go password u2 (xorBytes acc u2) n

/-- PBKDF2 block `T_i = U_1 ^ ... ^ U_c` (RFC 8018). -/
def pbkdf2Block (password salt : List Nat) (iter blockIdx : Nat) : List Nat :=
  let u1 := hmacSha512 password (salt ++ be32 blockIdx)
  pbkdf2Go password u1 u1 (iter - 1)

/-- PBKDF2-HMAC-SHA512 with `iter` iterations and `dkLen` output. -/
def pbkdf2HmacSha512 (password salt : List Nat) (iter dkLen : Nat) : List Nat :=
  ((List.range ((dkLen + 63) / 64)).flatMap fun i =>
      pbkdf2Block password salt iter (i + 1)).take dkLen

/-- The bytes of the string literal `"disktest salt"`. -/
def disktestSalt : List Nat :=
  [100, 105, 115, 107, 116, 101, 115, 116, 32, 115, 97, 108, 116]

/-- `kdf::derive_salt` (src/src/kdf.rs): SHA-512 of
`"disktest salt" || key`. -/
def derive_salt (key : List Nat) : List Nat := sha512 (disktestSalt ++ key)

/-- `kdf::kdf` (src/src/kdf.rs): build the password
`seed || le32(thread_id)` plus, for `round_id > 0`,
`'R' || le64(round_id)`; derive 32 bytes with PBKDF2-HMAC-SHA512 at
50,000 iterations and the derived salt.  `'R' = 82`. -/
def kdf (seed : List Nat) (threadId roundId : Nat) : List Nat :=
  let key := seed ++ le32 threadId ++
    (if 0 < roundId then [82] ++ le64 roundId else [])
  pbkdf2HmacSha512 key (derive_salt key) 50000 32

/-- The password exactly as §4.1 of the specification words it. -/
def kdfSpecPassword (seed : List Nat) (threadId roundId : Nat) : List Nat :=
  if roundId = 0 then seed ++ le32 threadId
  else seed ++ le32 threadId ++ [82] ++ le64 roundId

/-! ## Helper lemmas -/

theorem getD_eq_getElem (l : List Nat) (o : Nat) (h : o < l.length) :
    l.getD o 0 = l[o] := by
  rw [List.getD_eq_getElem?_getD, List.getElem?_eq_getElem h]
  rfl

theorem getD_of_le (l : List Nat) (o : Nat) (h : l.length ≤ o) :
    l.getD o 0 = 0 := by
  rw [List.getD_eq_getElem?_getD, List.getElem?_eq_none h]
  rfl

theorem foldGo_length (os : Nat) (l : List Nat) :
    ∀ (i : Nat) (out : List Nat), (foldGo os l i out).length = out.length := by
  induction l with
  | nil => intro i out; rfl
  | cons d rest ih => intro i out; rw [foldGo, ih, List.length_set]

theorem foldGo_getD (os o : Nat) (ho : o < os) (l : List Nat) :
    ∀ (i : Nat) (out : List Nat), out.length = os →
      (foldGo os l i out).getD o 0 = out.getD o 0 ^^^ xorAt os o l i := by
  induction l with
  | nil => intro i out _; rw [foldGo, xorAt, Nat.xor_zero]
  | cons d rest ih =>
    intro i out hlen
    have hset : (out.set (i % os) (out.getD (i % os) 0 ^^^ d)).length = os := by
      rw [List.length_set, hlen]
    rw [foldGo, xorAt, ih _ _ hset]
    have hoo : o < (out.set (i % os) (out.getD (i % os) 0 ^^^ d)).length := by
      rw [hset]; exact ho
    rw [getD_eq_getElem _ _ hoo, List.getElem_set]
    by_cases h : i % os = o
    · subst h
      rw [if_pos rfl, if_pos rfl, Nat.xor_assoc]
    · rw [if_neg h, if_neg h, Nat.zero_xor,
        getD_eq_getElem out o (by rw [hlen]; exact ho)]

theorem fold_length (input : List Nat) (os : Nat) : (fold input os).length = os := by
  unfold fold
  split
  · rw [foldGo_length, List.length_replicate]
  · rw [List.length_replicate]

theorem fold_getD (input : List Nat) (os o : Nat) (ho : o < os) :
    (fold input os).getD o 0 = xorAt os o input 0 := by
  unfold fold
  rw [if_pos (by omega)]
  rw [foldGo_getD os o ho input 0 _ (List.length_replicate os 0)]
  rw [getD_eq_getElem _ o (by rw [List.length_replicate]; exact ho),
    List.getElem_replicate, Nat.zero_xor]

theorem xorAt_small (os o : Nat) (ho : o < os) (l : List Nat) :
    ∀ i : Nat, i + l.length ≤ os →
      xorAt os o l i = if o < i then 0 else l.getD (o - i) 0 := by
  induction l with
  | nil =>
    intro i _
    rw [xorAt]
    split <;> rfl
  | cons d rest ih =>
    intro i h
    have hlen : (d :: rest).length = rest.length + 1 := by rfl
    have hi : i < os := by omega
    rw [xorAt, Nat.mod_eq_of_lt hi, ih (i + 1) (by rw [hlen] at h; omega)]
    by_cases hio : i = o
    · subst hio
      rw [if_pos rfl, if_pos (by omega), if_neg (by omega), Nat.sub_self,
        List.getD_cons_zero, Nat.xor_zero]
    · rw [if_neg hio, Nat.zero_xor]
      by_cases holt : o < i
      · rw [if_pos (by omega), if_pos holt]
      · rw [if_neg (by omega), if_neg holt]
        have hoi : o - i = (o - (i + 1)) + 1 := by omega
        rw [hoi, List.getD_cons_succ]

/-! ## Claim theorems -/

/-- C10: for every input byte slice and every `output_size`,
`fold(input, output_size)` returns a vector of exactly `output_size`
bytes in which byte `o` is the XOR of all input bytes whose index is
congruent to `o` modulo `output_size`; `output_size = 0` yields the
empty vector (no division by zero is reached thanks to the source's
guard), and an input no longer than `output_size` yields the input
followed by zero bytes. -/
theorem fold_spec (input : List Nat) (os : Nat) :
    (fold input os).length = os
    ∧ (∀ o, o < os → (fold input os).getD o 0 = xorAt os o input 0)
    ∧ fold input 0 = []
    ∧ (input.length ≤ os →
        fold input os = input ++ List.replicate (os - input.length) 0) := by
  refine ⟨fold_length input os, fun o ho => fold_getD input os o ho, ?_, ?_⟩
  · rfl
  · intro hle
    refine List.ext_getElem ?_ ?_
    · rw [fold_length, List.length_append, List.length_replicate]
      omega
    · intro n h1 h2
      have hn : n < os := by rw [fold_length] at h1; exact h1
      have hl : (fold input os).getD n 0 = (fold input os)[n] :=
        getD_eq_getElem _ _ h1
      rw [← hl, fold_getD input os n hn,
        xorAt_small os n hn input 0 (by omega), if_neg (by omega),
        Nat.sub_zero, List.getElem_append]
      by_cases hin : n < input.length
      · rw [getD_eq_getElem _ _ hin, dif_pos hin]
      · rw [getD_of_le _ _ (by omega), dif_neg hin, List.getElem_replicate]

/-- Witness for C10 at concrete inputs. -/
theorem fold_spec_witness :
    (fold [1, 2, 3, 4, 5] 2).getD 0 0 = xorAt 2 0 [1, 2, 3, 4, 5] 0
    ∧ fold [1, 2] 3 = [1, 2] ++ List.replicate (3 - [1, 2].length) 0 :=
  ⟨(fold_spec [1, 2, 3, 4, 5] 2).2.1 0 (by decide),
   (fold_spec [1, 2] 3).2.2.2 (by decide)⟩

/-- C9: `BufCacheCons::pull(len)` returns exactly `len` bytes; with no
recycled buffer the result is all zeros; a dequeued buffer of exactly
`len` bytes is returned unchanged, and otherwise only the bytes
appended by the length-extending resize are zero. -/
theorem pull_spec (queue : List (List Nat)) (len : Nat) :
    (BufCacheCons.pull queue len).1.length = len
    ∧ (queue = [] → BufCacheCons.pull queue len = (List.replicate len 0, []))
    ∧ ∀ b rest, queue = b :: rest →
        BufCacheCons.pull queue len =
          (if b.length = len then b
           else b.take len ++ List.replicate (len - b.length) 0, rest) := by
  have hnil : BufCacheCons.pull [] len = (List.replicate len 0, []) := by
    by_cases h : len = 0
    · subst h; rfl
    · simp [BufCacheCons.pull, vecResize, Ne.symm h]
  cases queue with
  | nil =>
    refine ⟨?_, fun _ => hnil, ?_⟩
    · rw [hnil]; exact List.length_replicate len 0
    · intro b rest h
      exact absurd h (by simp)
  | cons b rest =>
    have hcons : BufCacheCons.pull (b :: rest) len =
        (if b.length = len then b
         else b.take len ++ List.replicate (len - b.length) 0, rest) := by
      by_cases h : b.length = len
      · simp [BufCacheCons.pull, h]
      · simp [BufCacheCons.pull, vecResize, h]
    refine ⟨?_, ?_, ?_⟩
    · rw [hcons]
      by_cases h : b.length = len
      · rw [if_pos h]; exact h
      · rw [if_neg h]
        simp [List.length_take]
        omega
    · intro h
      exact absurd h (by simp)
    · intro c crest h
      rw [List.cons.injEq] at h
      rw [hcons, h.1, h.2]

/-- Witness for C9 at concrete inputs. -/
theorem pull_spec_witness :
    BufCacheCons.pull [] 2 = (List.replicate 2 0, [])
    ∧ BufCacheCons.pull [[5, 6]] 2 =
        (if [5, 6].length = 2 then ([5, 6] : List Nat)
         else [5, 6].take 2 ++ List.replicate (2 - [5, 6].length) 0, []) :=
  ⟨(pull_spec [] 2).2.1 rfl, (pull_spec [[5, 6]] 2).2.2 [5, 6] [] rfl⟩

/-- C6: `GeneratorCrc::seek(byte_offset)` succeeds and sets the
counter to `byte_offset / 2048` exactly when `byte_offset` is a
multiple of the base size 2048; otherwise it returns the
seek-alignment error and the state is unchanged. -/
theorem seek_spec (g : GeneratorCrc) (off : Nat) :
    GeneratorCrc.BASE_SIZE = 2048
    ∧ GeneratorCrc.seek g off =
        (if off % 2048 = 0
         then (Except.ok (), { g with counter := off / 2048 })
         else (Except.error GenError.seekAlignment, g))
    ∧ (((GeneratorCrc.seek g off).1 = Except.ok ()
          ∧ (GeneratorCrc.seek g off).2 = { g with counter := off / 2048 })
        ↔ off % 2048 = 0) := by
  refine ⟨rfl, ?_, ?_⟩
  · by_cases h : off % 2048 = 0 <;>
      simp [GeneratorCrc.seek, GeneratorCrc.BASE_SIZE, h]
  · by_cases h : off % 2048 = 0 <;>
      simp [GeneratorCrc.seek, GeneratorCrc.BASE_SIZE, h]

/-- C7: when `Disktest::write_destructive_mode` hits a write error
whose `raw_os_error` is `ENOSPC` after `bytesWritten` bytes, it
finalises with success and returns `Ok(bytesWritten)` exactly when
`max_bytes` is the `UNLIMITED` sentinel `u64::MAX`; for every other
`max_bytes` it finalises with failure and returns an error. -/
theorem write_enospc_spec (maxBytes chunkSize bytesWritten bytesLeft : Nat)
    (rest : List WriteRes) :
    write_destructive_loop maxBytes chunkSize bytesWritten bytesLeft
        (WriteRes.err (some ENOSPC) :: rest)
      = some (if maxBytes = UNLIMITED then (true, Except.ok bytesWritten)
              else (false, Except.error DtError.writeError))
    ∧ (write_destructive_loop maxBytes chunkSize bytesWritten bytesLeft
          (WriteRes.err (some ENOSPC) :: rest)
        = some (true, Except.ok bytesWritten) ↔ maxBytes = UNLIMITED) := by
  by_cases h : maxBytes = UNLIMITED <;>
    simp [write_destructive_loop, h]

theorem activate_eval (T base factor ss c : Nat)
    (hcs : 0 < base * factor) (hgeo : (base * factor) % ss = 0) :
    DtStreamAgg.activate T base factor (c * (base * factor)) ss =
      Except.ok
        { currentIndex := c % T
          threadOffsets := (List.range T).map fun i =>
            (c / T + if i < c % T then 1 else 0) * (base * factor)
          byteOffset := c * (base * factor)
          chunkSize := base * factor } := by
  have hmod : c * (base * factor) % (base * factor) = 0 := Nat.mul_mod_left _ _
  have hdiv : c * (base * factor) / (base * factor) = c :=
    Nat.mul_div_cancel c hcs
  simp only [DtStreamAgg.activate, calc_chunk_size,
    if_neg (not_not_intro hgeo)]
  rw [if_neg (not_not_intro hmod), hdiv]
  refine congrArg Except.ok ?_
  refine congrArg (fun os => AggActivation.mk (c % T) os
    (c * (base * factor)) (base * factor)) ?_
  refine List.map_congr_left fun i _ => ?_
  by_cases h : i < c % T <;> simp [h]

/-- C1: activating the aggregator with `T` streams at a byte offset
`c * chunk_size` sets the round-robin cursor to `c % T` and activates
stream `i` at generator byte offset `(c / T + 1) * chunk_size` when
`i < c % T` and `(c / T) * chunk_size` otherwise (`chunk_size =
base_chunk_size * chunk_factor`), returning the unadjusted offset. -/
theorem activate_aligned_spec (T base factor ss c : Nat)
    (_hT : 0 < T) (hcs : 0 < base * factor)
    (hgeo : (base * factor) % ss = 0) :
    DtStreamAgg.activate T base factor (c * (base * factor)) ss =
      Except.ok
        { currentIndex := c % T
          threadOffsets := (List.range T).map fun i =>
            (c / T + if i < c % T then 1 else 0) * (base * factor)
          byteOffset := c * (base * factor)
          chunkSize := base * factor } :=
  activate_eval T base factor ss c hcs hgeo

/-- Witness for C1: three streams, base 4, factor 2, sector size 2,
global chunk index 7. -/
theorem activate_aligned_spec_witness :
    DtStreamAgg.activate 3 4 2 (7 * (4 * 2)) 2 =
      Except.ok
        { currentIndex := 7 % 3
          threadOffsets := (List.range 3).map fun i =>
            (7 / 3 + if i < 7 % 3 then 1 else 0) * (4 * 2)
          byteOffset := 7 * (4 * 2)
          chunkSize := 4 * 2 } :=
  activate_aligned_spec 3 4 2 2 7 (by decide) (by decide) (by decide)

/-- C2: activating at `q * chunk_size + e` with `0 < e < chunk_size`
behaves exactly like activating at `q * chunk_size` (the whole
activation result, hence cursor and per-stream offsets, coincides),
and a successful activation reports the adjusted byte offset
`q * chunk_size` to the caller. -/
theorem activate_adjust_spec (T base factor ss q e : Nat)
    (he : 0 < e) (helt : e < base * factor) :
    DtStreamAgg.activate T base factor (q * (base * factor) + e) ss =
      DtStreamAgg.activate T base factor (q * (base * factor)) ss
    ∧ ∀ r, DtStreamAgg.activate T base factor (q * (base * factor) + e) ss
          = Except.ok r → r.byteOffset = q * (base * factor) := by
  have hcs : 0 < base * factor := by omega
  have hm1 : (q * (base * factor) + e) % (base * factor) = e := by
    rw [Nat.mul_comm q (base * factor), Nat.mul_add_mod,
      Nat.mod_eq_of_lt helt]
  have hm2 : q * (base * factor) % (base * factor) = 0 :=
    Nat.mul_mod_left _ _
  by_cases hg : (base * factor) % ss = 0
  · have heq : DtStreamAgg.activate T base factor
        (q * (base * factor) + e) ss =
        DtStreamAgg.activate T base factor (q * (base * factor)) ss := by
      simp only [DtStreamAgg.activate, calc_chunk_size,
        if_neg (not_not_intro hg)]
      rw [hm1, hm2, if_pos (by omega : e ≠ 0),
        if_neg (by omega : ¬ ((0 : Nat) ≠ 0)), Nat.add_sub_cancel]
    refine ⟨heq, fun r hr => ?_⟩
    rw [heq, activate_eval T base factor ss q hcs hg] at hr
    cases hr
    rfl
  · have hg2 : (base * factor) % ss ≠ 0 := hg
    refine ⟨?_, fun r hr => ?_⟩
    · simp only [DtStreamAgg.activate, calc_chunk_size, if_pos hg2]
    · simp only [DtStreamAgg.activate, calc_chunk_size, if_pos hg2] at hr
      cases hr

/-- Witness for C2: two streams, base 4, factor 2, sector size 4,
`q = 3`, `e = 5`. -/
theorem activate_adjust_spec_witness :
    DtStreamAgg.activate 2 4 2 (3 * (4 * 2) + 5) 4 =
      DtStreamAgg.activate 2 4 2 (3 * (4 * 2)) 4 :=
  (activate_adjust_spec 2 4 2 4 3 5 (by decide) (by decide)).1

/-- C3 (counterexample): with two streams and cursor 0, `get_chunk`
takes the chunk from stream 0's queue, yet records `thread_id = 1`
(the cursor read after it advanced), and dropping the wrapper pushes
the buffer into cache slot 1 — not slot 0, the stream that produced
the chunk. -/
theorem get_chunk_recycle_counterexample :
    DtStreamAgg.get_chunk
        { numThreads := 2, currentIndex := 0, queues := [[[7]], []] } =
      some ({ data := [7], thread_id := 1 },
            { numThreads := 2, currentIndex := 1, queues := [[], []] })
    ∧ DtStreamAggChunk.drop { data := [7], thread_id := 1 } [[], []]
        = [[], [[7]]]
    ∧ (1 : Nat) ≠ 0 := by
  refine ⟨by decide, by decide, by decide⟩

/-- C3 (amended): for every aggregator state whose cursor stream has a
chunk queued, `get_chunk` takes that chunk from stream
`current_index`, records `thread_id = (current_index + 1) % T` (the
cursor *after* the round-robin advance), and dropping the wrapper
pushes the buffer into that cache slot — the slot of the *next*
stream, which coincides with the producing stream only when `T = 1`. -/
theorem get_chunk_recycle_spec (st : AggConsState) (data : List Nat)
    (rest : List (List Nat)) (cache : BufCache)
    (h : st.queues.getD st.currentIndex [] = data :: rest) :
    DtStreamAgg.get_chunk st =
      some ({ data := data,
              thread_id := (st.currentIndex + 1) % st.numThreads },
            { numThreads := st.numThreads
              currentIndex := (st.currentIndex + 1) % st.numThreads
              queues := st.queues.set st.currentIndex rest })
    ∧ DtStreamAggChunk.drop
        { data := data, thread_id := (st.currentIndex + 1) % st.numThreads }
        cache
      = cache.push ((st.currentIndex + 1) % st.numThreads) data := by
  constructor
  · simp only [DtStreamAgg.get_chunk, h, List.head?_cons, List.tail_cons]
  · rfl

/-- Witness for the amended C3 at a concrete three-stream state. -/
theorem get_chunk_recycle_spec_witness :
    DtStreamAgg.get_chunk
        { numThreads := 3, currentIndex := 2, queues := [[], [], [[9]]] } =
      some ({ data := [9], thread_id := (2 + 1) % 3 },
            { numThreads := 3
              currentIndex := (2 + 1) % 3
              queues := [[], [], [[9]]].set 2 [] })
    ∧ DtStreamAggChunk.drop { data := [9], thread_id := (2 + 1) % 3 }
        [[], [], []]
      = BufCache.push [[], [], []] ((2 + 1) % 3) [9] :=
  get_chunk_recycle_spec
    { numThreads := 3, currentIndex := 2, queues := [[], [], [[9]]] }
    [9] [] [[], [], []] (by decide)

theorem forceThen_eq {α : Type} (n : Nat) (k : Nat → α) :
    forceThen n k = k n := by
  cases n <;> rfl

theorem rollGo_eq (l : List Nat) : ∀ i acc : Nat,
    rollGo l i acc =
      (List.enumFrom i l).foldl (fun a p => rotl32 a p.1 ^^^ p.2) acc := by
  induction l with
  | nil => intro i acc; rfl
  | cons b rest ih =>
    intro i acc
    rw [rollGo, forceThen_eq, ih, List.enumFrom_cons, List.foldl_cons]

theorem rollingReduce_eq_rollGo (l : List Nat) :
    rollingReduce l = rollGo l 0 0 := by
  rw [rollingReduce, rollGo_eq]
  rfl

theorem foldl_upd_shift (m k r : Nat) :
    (List.range (m + 1)).foldl (fun a s => crcUpdByte a (k + s)) r
      = (List.range m).foldl (fun a s => crcUpdByte a ((k + 1) + s))
          (crcUpdByte r k) := by
  rw [List.range_succ_eq_map, List.foldl_cons, List.foldl_map]
  simp only [Nat.add_zero]
  refine List.foldl_ext _ _ _ fun a s _ => ?_
  congr 1
  omega

theorem crcBlockGo_eq (n : Nat) : ∀ k r : Nat,
    crcBlockGo n k r =
      (List.range n).flatMap fun t =>
        le64 (crcSum64
          ((List.range (t + 1)).foldl (fun a s => crcUpdByte a (k + s)) r)) := by
  induction n with
  | zero => intro k r; rfl
  | succ n ih =>
    intro k r
    rw [crcBlockGo, ih (k + 1) (crcUpdByte r k), List.range_succ_eq_map,
      List.flatMap_cons, List.flatMap_map]
    congr 1
    refine congrArg (List.flatMap (List.range n)) (funext fun t => ?_)
    exact congrArg (fun x => le64 (crcSum64 x)) (foldl_upd_shift (t + 1) k r).symm

theorem crcBlock_eq (fs : List Nat) (c : Nat) :
    crcBlock fs c =
      (List.range 256).flatMap fun offs =>
        le64 (crcSum64 (crcDigestAfter fs c offs)) := by
  rw [crcBlock, crcBlockGo_eq]
  refine congrArg (List.flatMap (List.range 256)) (funext fun offs => ?_)
  rw [crcDigestAfter]
  refine congrArg (fun x => le64 (crcSum64 x)) ?_
  refine List.foldl_ext _ _ _ fun a s _ => ?_
  rw [Nat.zero_add]

theorem crcNextGo_eq (n : Nat) : ∀ (fs : List Nat) (ctr : Nat),
    crcNextGo n fs ctr =
      (List.range n).flatMap fun j => crcBlock fs (ctr + j) := by
  induction n with
  | zero => intro fs ctr; rfl
  | succ n ih =>
    intro fs ctr
    rw [crcNextGo, ih fs (ctr + 1), List.range_succ_eq_map,
      List.flatMap_cons, List.flatMap_map]
    congr 1
    refine congrArg (List.flatMap (List.range n)) (funext fun j => ?_)
    congr 1
    omega

theorem crcBlockGo_length (n : Nat) : ∀ k r : Nat,
    (crcBlockGo n k r).length = n * 8 := by
  induction n with
  | zero => intro k r; rfl
  | succ n ih =>
    intro k r
    rw [crcBlockGo, List.length_append, ih]
    simp [le64]
    omega

theorem crcNextGo_length (n : Nat) : ∀ (fs : List Nat) (ctr : Nat),
    (crcNextGo n fs ctr).length = n * 2048 := by
  induction n with
  | zero => intro fs ctr; rfl
  | succ n ih =>
    intro fs ctr
    rw [crcNextGo, List.length_append, ih, crcBlock, crcBlockGo_length]
    omega

set_option maxRecDepth 100000 in
set_option maxHeartbeats 4000000 in
/-- C5: `GeneratorCrc::next(buf, count)` emits `count` independent
2048-byte blocks: block `j` consists, for `offs = 0..255`, of the
bit-inverted little-endian CRC value of the digest that absorbed
`folded_seed || le64(counter + j)` and then the single bytes
`0, ..., offs`, placed at block bytes `[offs*8, offs*8+8)`; the
counter advances by one per emitted block; and with seed `[1,2,3]`
and counter 0 the rolling reduction of the first block is
2183862535. -/
theorem next_spec (g : GeneratorCrc) (count : Nat) :
    (g.next count).1 =
      ((List.range count).flatMap fun j =>
        (List.range 256).flatMap fun offs =>
          le64 (crcSum64 (crcDigestAfter g.foldedSeed (g.counter + j) offs)))
    ∧ (g.next count).1.length = count * 2048
    ∧ (g.next count).2 = { g with counter := g.counter + count }
    ∧ rollingReduce ((GeneratorCrc.new [1, 2, 3]).next 1).1 = 2183862535 := by
  refine ⟨?_, ?_, rfl, ?_⟩
  · rw [GeneratorCrc.next, crcNextGo_eq]
    exact congrArg (List.flatMap (List.range count))
      (funext fun j => crcBlock_eq g.foldedSeed (g.counter + j))
  · exact crcNextGo_length count g.foldedSeed g.counter
  · rw [rollingReduce_eq_rollGo]
    decide

theorem fillBuf_length (device : Nat → Nat) : ∀ (n : Nat) (buf : List Nat)
    (p pos : Nat), (fillBuf device buf p pos n).length = buf.length := by
  intro n
  induction n with
  | zero => intro buf p pos; rfl
  | succ n ih =>
    intro buf p pos
    rw [fillBuf, ih, List.length_set]

theorem fillBuf_getD_lt (device : Nat → Nat) : ∀ (n : Nat) (buf : List Nat)
    (p pos j : Nat), j < p →
    (fillBuf device buf p pos n).getD j 0 = buf.getD j 0 := by
  intro n
  induction n with
  | zero => intro buf p pos j _; rfl
  | succ n ih =>
    intro buf p pos j hj
    rw [fillBuf, ih _ _ _ _ (by omega)]
    rw [List.getD_eq_getElem?_getD, List.getD_eq_getElem?_getD,
      List.getElem?_set_ne (by omega)]

theorem fillBuf_getD_in (device : Nat → Nat) : ∀ (n : Nat) (buf : List Nat)
    (p pos j : Nat), p ≤ j → j < p + n → j < buf.length →
    (fillBuf device buf p pos n).getD j 0 = device (pos + (j - p)) := by
  intro n
  induction n with
  | zero => intro buf p pos j h1 h2 _; omega
  | succ n ih =>
    intro buf p pos j h1 h2 hlen
    rw [fillBuf]
    by_cases hjp : j = p
    · subst hjp
      rw [fillBuf_getD_lt device n _ _ _ _ (by omega),
        getD_eq_getElem _ _ (by rw [List.length_set]; exact hlen),
        List.getElem_set, if_pos rfl, Nat.sub_self, Nat.add_zero]
    · rw [ih _ _ _ _ (by omega) (by omega) (by rw [List.length_set]; exact hlen)]
      exact congrArg device (by omega)

theorem firstDiff_spec : ∀ (a b : List Nat) (i : Nat),
    firstDiff a b = some i →
      i < a.length ∧ i < b.length ∧ a.getD i 0 ≠ b.getD i 0
        ∧ ∀ j, j < i → a.getD j 0 = b.getD j 0 := by
  intro a
  induction a with
  | nil => intro b i h; cases b <;> cases h
  | cons x as ih =>
    intro b i h
    cases b with
    | nil => cases h
    | cons y bs =>
      rw [firstDiff] at h
      by_cases hxy : x ≠ y
      · rw [if_pos hxy] at h
        cases h
        exact ⟨by simp, by simp, by simpa using hxy, fun j hj => by omega⟩
      · rw [if_neg hxy] at h
        push_neg at hxy
        cases hfd : firstDiff as bs with
        | none => rw [hfd] at h; cases h
        | some i0 =>
          rw [hfd] at h
          simp only [Option.map_some'] at h
          cases h
          obtain ⟨h1, h2, h3, h4⟩ := ih bs i0 hfd
          refine ⟨by simpa using h1, by simpa using h2, ?_, ?_⟩
          · rw [List.getD_cons_succ, List.getD_cons_succ]
            exact h3
          · intro j hj
            cases j with
            | zero => rw [List.getD_cons_zero, List.getD_cons_zero, hxy]
            | succ j0 =>
              rw [List.getD_cons_succ, List.getD_cons_succ]
              exact h4 j0 (by omega)

theorem firstDiff_none_eq : ∀ a b : List Nat, a.length = b.length →
    firstDiff a b = none → a = b := by
  intro a
  induction a with
  | nil =>
    intro b h _
    cases b with
    | nil => rfl
    | cons y bs => cases h
  | cons x as ih =>
    intro b h hfd
    cases b with
    | nil => cases h
    | cons y bs =>
      rw [firstDiff] at hfd
      by_cases hxy : x ≠ y
      · rw [if_pos hxy] at hfd; cases hfd
      · rw [if_neg hxy] at hfd
        push_neg at hxy
        cases hfd2 : firstDiff as bs with
        | none =>
          rw [hxy, ih bs (by simpa using h) hfd2]
        | some i0 => rw [hfd2] at hfd; cases hfd

theorem getD_take (l : List Nat) (m j : Nat) (h : j < m) :
    (l.take m).getD j 0 = l.getD j 0 := by
  rw [List.getD_eq_getElem?_getD, List.getD_eq_getElem?_getD,
    List.getElem?_take, if_pos h]

theorem aggChunkData_length (keystream : Nat → Nat) (sAdj cs ci : Nat) :
    (aggChunkData keystream sAdj cs ci).length = cs := by
  rw [aggChunkData, List.length_map, List.length_range]

theorem aggChunkData_getD (keystream : Nat → Nat) (sAdj cs ci j : Nat)
    (h : j < cs) :
    (aggChunkData keystream sAdj cs ci).getD j 0
      = keystream (sAdj + ci * cs + j) := by
  rw [getD_eq_getElem _ _ (by rw [aggChunkData_length]; exact h)]
  simp [aggChunkData]

theorem verify_loop_mismatch (keystream device : Nat → Nat)
    (sAdj chunkSize : Nat) :
    ∀ (reads : List (Option Nat))
      (bytesRead bytesLeft readCount readLen chunkIdx : Nat)
      (buffer : List Nat) (flag : Bool) (p : Nat),
      buffer.length = chunkSize →
      readCount ≤ readLen →
      readLen = min chunkSize bytesLeft →
      bytesRead = chunkIdx * chunkSize →
      (∀ j, j < readCount → buffer.getD j 0 = device (sAdj + bytesRead + j)) →
      (∀ t, t < bytesRead → device (sAdj + t) = keystream (sAdj + t)) →
      verify_destructive_loop keystream device sAdj chunkSize reads
          bytesRead bytesLeft readCount readLen chunkIdx buffer
        = some (flag, Except.error (DtError.dataMismatch p)) →
      device (sAdj + p) ≠ keystream (sAdj + p)
        ∧ ∀ t, t < p → device (sAdj + t) = keystream (sAdj + t) := by
  intro reads
  induction reads with
  | nil =>
    intro bytesRead bytesLeft readCount readLen chunkIdx buffer flag p
      _ _ _ _ _ _ hrun
    rw [verify_destructive_loop] at hrun
    cases hrun
  | cons r rest ih =>
    intro bytesRead bytesLeft readCount readLen chunkIdx buffer flag p
      hbuf hrc hrl hbr hpre hmat hrun
    cases r with
    | none =>
      simp only [verify_destructive_loop] at hrun
      cases hrun
    | some nRaw =>
      simp only [verify_destructive_loop] at hrun
      set n := min nRaw (readLen - readCount) with hn
      set buffer2 :=
        fillBuf device buffer readCount (sAdj + bytesRead + readCount) n
        with hb2
      set rc2 := readCount + n with hrc2def
      set chunk := aggChunkData keystream sAdj chunkSize chunkIdx with hchunk
      have hnle : n ≤ readLen - readCount := Nat.min_le_right _ _
      have hb2len : buffer2.length = chunkSize := by
        rw [hb2, fillBuf_length]
        exact hbuf
      have hrlcs : readLen ≤ chunkSize := by
        rw [hrl]
        exact Nat.min_le_left _ _
      have hle : rc2 ≤ readLen := by omega
      have hpre2 : ∀ j, j < rc2 →
          buffer2.getD j 0 = device (sAdj + bytesRead + j) := by
        intro j hj
        by_cases hjr : j < readCount
        · rw [hb2, fillBuf_getD_lt device n _ _ _ _ hjr]
          exact hpre j hjr
        · rw [hb2, fillBuf_getD_in device n _ _ _ _ (by omega) (by omega)
            (by rw [hbuf]; omega)]
          exact congrArg device (by omega)
      have hchunkj : ∀ j, j < rc2 →
          chunk.getD j 0 = keystream (sAdj + bytesRead + j) := by
        intro j hj
        rw [hchunk, aggChunkData_getD keystream sAdj chunkSize chunkIdx j
          (by omega)]
        exact congrArg keystream (by rw [hbr])
      by_cases hcmp : rc2 = readLen ∨ (0 < rc2 ∧ n = 0)
      · rw [if_pos hcmp] at hrun
        by_cases hne : buffer2.take rc2 ≠ chunk.take rc2
        · rw [if_pos hne] at hrun
          have hlens : (buffer2.take rc2).length = (chunk.take rc2).length := by
            rw [List.length_take, List.length_take, hb2len, hchunk,
              aggChunkData_length]
          cases hfd : firstDiff (buffer2.take rc2) (chunk.take rc2) with
          | none => exact absurd (firstDiff_none_eq _ _ hlens hfd) hne
          | some i =>
            rw [verify_failed, hfd, Option.map_some'] at hrun
            simp only [Option.some.injEq, Prod.mk.injEq, Except.error.injEq,
              DtError.dataMismatch.injEq] at hrun
            obtain ⟨hflag, hp⟩ := hrun
            obtain ⟨hi1, hi2, hi3, hi4⟩ := firstDiff_spec _ _ _ hfd
            have hirc : i < rc2 := by
              rw [List.length_take, hb2len] at hi1
              omega
            constructor
            · have hd : buffer2.getD i 0 ≠ chunk.getD i 0 := by
                rw [← getD_take buffer2 rc2 i hirc, ← getD_take chunk rc2 i hirc]
                exact hi3
              rw [hpre2 i hirc, hchunkj i hirc] at hd
              have hps : sAdj + p = sAdj + bytesRead + i := by omega
              rw [hps]
              exact hd
            · intro t ht
              by_cases htb : t < bytesRead
              · exact hmat t htb
              · have hj : t - bytesRead < i := by omega
                have := hi4 (t - bytesRead) hj
                rw [getD_take buffer2 rc2 _ (by omega),
                  getD_take chunk rc2 _ (by omega)] at this
                rw [hpre2 _ (by omega), hchunkj _ (by omega)] at this
                have hts : sAdj + bytesRead + (t - bytesRead) = sAdj + t := by
                  omega
                rw [hts] at this
                exact this
        · rw [if_neg hne] at hrun
          push_neg at hne
          have hmat2 : ∀ t, t < bytesRead + rc2 →
              device (sAdj + t) = keystream (sAdj + t) := by
            intro t ht
            by_cases htb : t < bytesRead
            · exact hmat t htb
            · have hj : t - bytesRead < rc2 := by omega
              have := congrArg (fun l => l.getD (t - bytesRead) 0) hne
              simp only at this
              rw [getD_take buffer2 rc2 _ hj, getD_take chunk rc2 _ hj] at this
              rw [hpre2 _ hj, hchunkj _ hj] at this
              have hts : sAdj + bytesRead + (t - bytesRead) = sAdj + t := by
                omega
              rw [hts] at this
              exact this
          by_cases hbl : bytesLeft - rc2 = 0
          · rw [if_pos hbl] at hrun
            cases hrun
          · rw [if_neg hbl] at hrun
            by_cases hn0 : n = 0
            · rw [if_pos hn0] at hrun
              cases hrun
            · rw [if_neg hn0] at hrun
              have hrcf : rc2 = readLen := by
                rcases hcmp with h | h
                · exact h
                · exact absurd h.2 hn0
              have hrlf : readLen = chunkSize := by
                rcases Nat.le_total chunkSize bytesLeft with h | h
                · rw [hrl]
                  exact Nat.min_eq_left h
                · have : readLen = bytesLeft := by
                    rw [hrl]
                    exact Nat.min_eq_right h
                  omega
              exact ih (bytesRead + rc2) (bytesLeft - rc2) 0
                (min chunkSize (bytesLeft - rc2)) (chunkIdx + 1) buffer2 flag p
                hb2len (Nat.zero_le _) rfl
                (by rw [hbr]; rw [hrcf, hrlf]; ring)
                (fun j hj => absurd hj (by omega)) hmat2 hrun
      · rw [if_neg hcmp] at hrun
        by_cases hn0 : n = 0
        · rw [if_pos hn0] at hrun
          cases hrun
        · rw [if_neg hn0] at hrun
          exact ih bytesRead bytesLeft rc2 readLen chunkIdx buffer2 flag p
            hb2len hle hrl hbr hpre2 hmat hrun

/-- C8 (amended): when the destructive verify pump, started at the
adjusted seek offset `sAdj`, returns a data-mismatch error at
position `p`, then `p` is the offset of the first differing byte
*relative to the verify start*: the device and the expected keystream
differ at absolute offset `sAdj + p` and agree at every earlier
verified byte.  The absolute offset is therefore `sAdj + p`; the
reported position omits the seek offset. -/
theorem verify_mismatch_relative_spec (keystream device : Nat → Nat)
    (sAdj chunkSize maxBytes : Nat) (reads : List (Option Nat))
    (flag : Bool) (p : Nat)
    (hrun : verify_destructive keystream device sAdj chunkSize maxBytes reads
      = some (flag, Except.error (DtError.dataMismatch p))) :
    device (sAdj + p) ≠ keystream (sAdj + p)
    ∧ ∀ t, t < p → device (sAdj + t) = keystream (sAdj + t) := by
  rw [verify_destructive] at hrun
  exact verify_loop_mismatch keystream device sAdj chunkSize reads 0 maxBytes 0
    (min chunkSize maxBytes) 0 (List.replicate chunkSize 0) flag p
    (List.length_replicate _ _) (Nat.zero_le _) rfl (Nat.zero_mul _).symm
    (fun j hj => absurd hj (by omega)) (fun t ht => absurd ht (by omega)) hrun

/-- C8 (counterexample): a verify run started at seek offset 2 with
chunk size 2, where the device byte at absolute offset 2 (the first
byte compared) differs from the keystream, reports DataMismatch at
position 0 — not at the absolute offset 2 = s + 0 + 0 that the claim
asserts. -/
theorem verify_mismatch_counterexample :
    verify_destructive (fun t => t % 256)
        (fun t => if t = 2 then 9 else t % 256) 2 2 4 [some 2]
      = some (false, Except.error (DtError.dataMismatch 0))
    ∧ (0 : Nat) ≠ 2 + 0 + 0 :=
  ⟨rfl, by decide⟩

/-- Witness for the amended C8: the mismatch position reported in the
counterexample run indeed locates the first differing device byte at
`sAdj + 0`. -/
theorem verify_mismatch_relative_spec_witness :
    (if (2 + 0 : Nat) = 2 then 9 else (2 + 0) % 256) ≠ (2 + 0) % 256 :=
  (verify_mismatch_relative_spec (fun t => t % 256)
    (fun t => if t = 2 then 9 else t % 256) 2 2 4 [some 2] false 0 rfl).1

/-- `kdf(seed, thread_id, round_id)` equals PBKDF2-HMAC-SHA512 with
50,000 iterations and 32-byte output, where the password is the §4.1
form (`seed || le32(thread_id)`, extended for `round_id > 0` with
`'R' || le64(round_id)`) and the salt is
SHA-512(`"disktest salt" || password`).  This settles the structural
part of the KDF contract; the 50,000-iteration fixed vectors are not
evaluated here. -/
theorem kdf_structure (seed : List Nat) (threadId roundId : Nat) :
    kdf seed threadId roundId
      = pbkdf2HmacSha512 (kdfSpecPassword seed threadId roundId)
          (sha512 (disktestSalt ++ kdfSpecPassword seed threadId roundId))
          50000 32 := by
  rw [kdf, kdfSpecPassword, derive_salt]
  by_cases h : roundId = 0
  · subst h
    simp
  · rw [if_pos (Nat.pos_of_ne_zero h), if_neg h]
    simp [List.append_assoc]

end Disktest
